import Mathlib

/-!
Verification of the core of `ft_ping` (src/src/main.c, src/src/ping.h)
against its natural-language specification.

The C code is shallowly embedded: byte buffers are `List Nat` (each entry a
byte value `< 256`), machine integers are `Nat` with explicit `% 2^w` where
the C code wraps, and the session loop is an explicit step function on a
state record.
-/

namespace FtPing

/-- `PKTSIZE` from src/src/ping.h. -/
def PKTSIZE : Nat := 64


/-- `MIN_ICMPSIZE` from src/src/ping.h (size of the ICMP echo header). -/
def MIN_ICMPSIZE : Nat := 8


/-- `Icmp_EchoReply` from src/src/ping.h. -/
def Icmp_EchoReply : Nat := 0


/-- `Icmp_EchoRequest` from src/src/ping.h. -/
def Icmp_EchoRequest : Nat := 8


/-- Modelled from the spec: `Icmp_TimeExceeded` is used by `send_ping` in
src/src/main.c but declared in the repository's `types.h`, which is not under
src/.  The spec's glossary describes it as the standard ICMP Time Exceeded
message, whose type value is 11. -/
def Icmp_TimeExceeded : Nat := 11


/-! ## Checksum engine (`checksum`, src/src/main.c lines 101-119) -/


/-- The 16-bit words of a byte buffer under native little-endian pairing,
exactly as the loop `for (ptr = data; len > 1; len -= 2) sum += *ptr;` reads
them; a trailing odd byte stands alone as the low byte of a final word
(`if (len == 1) sum += *(const u8*)ptr;`). -/
def words : List Nat → List Nat
  | [] => []
  | [b] => [b]
  | b0 :: b1 :: rest => (b0 + 256 * b1) :: words rest


/-- `checksum` from src/src/main.c: a `u32` accumulator over the 16-bit
words, the two explicit carry folds
`sum = (sum >> 16) + (sum & 0xFFFF); sum += (sum >> 16);`, and the low
16 bits of the bitwise complement (`return ~sum;` narrowed to `u16`). -/
def checksum (bs : List Nat) : Nat :=
  let s := (words bs).sum % 4294967296
  let s1 := s / 65536 + s % 65536
  let s2 := s1 + s1 / 65536
  65535 - s2 % 65536


/-- Carry folding "until no carry remains", as the spec describes the
RFC 1071 algorithm: repeatedly add the high 16 bits into the low 16 bits. -/
def foldCarry (s : Nat) : Nat :=
  if h : s < 65536 then s else foldCarry (s / 65536 + s % 65536)
termination_by s
decreasing_by
  have h1 : s % 65536 < 65536 := Nat.mod_lt _ (by omega)
  have h2 : 65536 * (s / 65536) + s % 65536 = s := Nat.div_add_mod s 65536
  have h3 : 1 ≤ s / 65536 := (Nat.one_le_div_iff (by omega)).mpr (by omega)
  calc s / 65536 + s % 65536 < s := by omega


/-- The RFC 1071 Internet checksum as the spec words it: 16-bit words summed
into a 32-bit accumulator, carries folded until none remain, one's complement
of the 16-bit result. -/
def rfc1071 (bs : List Nat) : Nat :=
  65535 - foldCarry ((words bs).sum % 4294967296)


/-! ## Byte-level field access

The `u16` fields of `IcmpEchoHeader` (src/src/ping.h) occupy two consecutive
bytes in the struct's native (little-endian) layout: `cksum` at offsets 2-3,
`id` at 4-5, `seq` at 6-7. -/


/-- Read the `cksum` field (bytes 2 and 3, native little-endian). -/
def readCk (p : List Nat) : Nat := p.getD 2 0 + 256 * p.getD 3 0


/-- Zero the `cksum` field, as `pkt->header.cksum = 0` does. -/
def zeroCk (p : List Nat) : List Nat := (p.set 2 0).set 3 0


/-- Store a 16-bit value into the `cksum` field in the native little-endian
layout of the `u16` field. -/
def embedCk (p : List Nat) (c : Nat) : List Nat :=
  (p.set 2 (c % 256)).set 3 (c / 256 % 256)


/-- Flip bit `k` of byte `i` of a buffer. -/
def flipBit (p : List Nat) (i k : Nat) : List Nat :=
  p.set i (p.getD i 0 ^^^ 2 ^ k)


/-- The checksum verification `decode_msg` performs on the ICMP region
(src/src/main.c lines 138-143): read the stored `cksum`, recompute the
checksum with the field zeroed, succeed exactly when they agree. -/
def verifyCk (p : List Nat) : Bool := readCk p == checksum (zeroCk p)


/-- Value `v` is stored at bytes `i, i+1` of `p` in network byte order
(big-endian), the order the spec prescribes for the header fields. -/
def storedBE (p : List Nat) (i v : Nat) : Prop :=
  p.getD i 0 = v / 256 % 256 ∧ p.getD (i + 1) 0 = v % 256


/-- Value `v` is stored at bytes `i, i+1` of `p` in little-endian (host)
byte order. -/
def storedLE (p : List Nat) (i v : Nat) : Prop :=
  p.getD i 0 = v % 256 ∧ p.getD (i + 1) 0 = v / 256 % 256


/-! ## Packet encoder (`init_packet`, src/src/main.c lines 165-182) -/


/-- The 56 filler bytes `pkt.msg[i] = i + '0'` of `init_packet` (the `u8`
store wraps at 256, though `i + 48 < 256` here). -/
def fillerBytes : List Nat := (List.range 56).map (fun i => (i + 48) % 256)


/-- The byte image of the `Packet` built by `init_packet` before the
checksum is stored: `type = Icmp_EchoRequest`, `code = 0`, `cksum`
zero-initialised, `id = pid` assigned to the `u16` field with no byte-order
conversion (hence stored little-endian), `seq = htons(seq)` (hence stored
with big-endian byte placement), then the filler. -/
def pktZero (pid seq : Nat) : List Nat :=
  [Icmp_EchoRequest, 0, 0, 0,
   pid % 256, pid / 256 % 256,
   seq / 256 % 256, seq % 256] ++ fillerBytes


/-- `init_packet` from src/src/main.c: build the zero-checksum packet image,
then `pkt.header.cksum = checksum(&pkt, sizeof(pkt))`. -/
def init_packet (pid seq : Nat) : List Nat :=
  embedCk (pktZero pid seq) (checksum (pktZero pid seq))


/-! ## Packet decoder (`decode_msg`, src/src/main.c lines 121-145) -/


/-- The outcome of `decode_msg`: the returned flag, the 64 `Packet` bytes
copied to `*out`, the IP header size written to `*ip_hdr_size`, and the
caller's buffer after the call.  The last component records that `pkt`
points into the caller's buffer, so the checksum verification writes
through it. -/
structure DecodeResult where
  ok : Bool
  out : List Nat
  ipHdrSize : Nat
  buffer : List Nat
deriving DecidableEq


/-- `decode_msg` from src/src/main.c.  `buf` is the caller's receive array,
`size` the byte count `recvmsg` returned.  The IP header size is the first
byte's low nibble (`ip_hl`, low on a little-endian machine) times 4; the
`Packet` at that offset is copied to `*out` before any check; a type other
than `Icmp_EchoReply` fails immediately (before the length check); a buffer
shorter than `header_size + PKTSIZE` fails; otherwise the stored checksum is
compared against the checksum recomputed over `size - header_size` bytes
with the field zeroed in place. -/
def decode_msg (buf : List Nat) (size : Nat) : DecodeResult :=
  let hdr := buf.getD 0 0 % 16 * 4
  let out := (buf.drop hdr).take 64
  if out.getD 0 0 ≠ Icmp_EchoReply then
    ⟨false, out, hdr, buf⟩
  else if size < hdr + PKTSIZE then
    ⟨false, out, hdr, buf⟩
  else
    let cksum := buf.getD (hdr + 2) 0 + 256 * buf.getD (hdr + 3) 0
    let buf0 := (buf.set (hdr + 2) 0).set (hdr + 3) 0
    let c := checksum ((buf0.drop hdr).take (size - hdr))
    let buf1 := (buf0.set (hdr + 2) (c % 256)).set (hdr + 3) (c / 256 % 256)
    ⟨cksum == c, out, hdr, buf1⟩



/-- A concrete 124-byte receive array: a minimal 20-byte IP header
(first byte `0x45`) followed by an ICMP portion whose type byte is
`Icmp_EchoRequest`. -/
def shortLoopbackBuf : List Nat :=
  69 :: List.replicate 19 0 ++ 8 :: List.replicate 103 0


/-! ## Session loop (`send_ping`, src/src/main.c lines 184-317) -/


/-- One line printed by the classification code of `send_ping`, abstracted
to the branch taken (and, for a reply line, the sequence number shown,
`ntohs(r_pkt.header.seq)`). -/
inductive Line where
  | timeExceeded
  | cksumMismatch
  | unknownErr
  | reply (seq : Nat)
deriving DecidableEq


/-- The loop state of `send_ping`: `msg_count`, `pkt_transmitted` and
`pkt_received` (all `u16`), plus the lines printed so far. -/
structure SessState where
  msgCount : Nat
  transmitted : Nat
  received : Nat
  lines : List Line
deriving DecidableEq


/-- `u16` increment (`++` on a `u16` counter). -/
def cAdd (x : Nat) : Nat := (x + 1) % 65536


/-- `u16` decrement (`--` on a `u16` counter). -/
def cSub (x : Nat) : Nat := (x + 65535) % 65536


/-- One iteration of the `while (pingloop)` loop of `send_ping`, for a round
whose `sendto` and `recvmsg` both succeed: `init_packet(pid, msg_count++)`
builds the probe (the packet goes to the socket and does not otherwise touch
the loop state), `pkt_transmitted++`, then the received bytes (`buf`, with
`size` the count `recvmsg` returned) are decoded and classified.  Returns
the new state and whether the round falls through to the `usleep` at
`next_ping` — `false` exactly for the `Icmp_EchoRequest` branch, whose
`continue` restarts the loop, after `pkt_transmitted--`, without printing. -/
def stepRound (st : SessState) (buf : List Nat) (size : Nat) : SessState × Bool :=
  let st1 : SessState :=
    { st with msgCount := cAdd st.msgCount, transmitted := cAdd st.transmitted }
  let d := decode_msg buf size
  if d.ok then
    ({ st1 with received := cAdd st1.received,
                lines := st1.lines ++ [Line.reply (256 * d.out.getD 6 0 + d.out.getD 7 0)] },
     true)
  else if d.out.getD 0 0 = Icmp_TimeExceeded then
    ({ st1 with lines := st1.lines ++ [Line.timeExceeded] }, true)
  else if d.out.getD 0 0 = Icmp_EchoReply then
    ({ st1 with lines := st1.lines ++ [Line.cksumMismatch] }, true)
  else if d.out.getD 0 0 = Icmp_EchoRequest then
    ({ st1 with transmitted := cSub st1.transmitted }, false)
  else
    ({ st1 with lines := st1.lines ++ [Line.unknownErr] }, true)


/-- The counters at the start of `send_ping`. -/
def initSess : SessState := ⟨0, 0, 0, []⟩


/-- The session loop run over a list of rounds (each the receive buffer and
the byte count `recvmsg` returned), from the zero-initialised counters. -/
def runSession (rounds : List (List Nat × Nat)) : SessState :=
  rounds.foldl (fun acc rb => (stepRound acc rb.1 rb.2).1) initSess


/-- An all-zero 64-byte ICMP image (type `Icmp_EchoReply`). -/
def icmpZero : List Nat := List.replicate 64 0


/-- A receive buffer holding a minimal IP header and a valid EchoReply:
the all-zero packet with its correct checksum embedded. -/
def goodBuf : List Nat := 69 :: (List.replicate 19 0 ++ embedCk icmpZero (checksum icmpZero))


/-- A receive buffer holding a minimal IP header and a TimeExceeded frame. -/
def tleBuf : List Nat := 69 :: (List.replicate 19 0 ++ (11 :: List.replicate 63 0))


def wrapRounds : List (List Nat × Nat) :=
  (tleBuf, 84) :: List.replicate 65535 (goodBuf, 84)


/-! ## Exit paths and the socket (`send_ping` fatal branches, `main`) -/


/-- The transport events one loop iteration of `send_ping` sees: the return
value of `sendto`, the return value of `recvmsg`, and the bytes received. -/
structure RoundEvent where
  sendRes : Int
  recvRes : Int
  buf : List Nat


/-- The `while (pingloop)` loop of `send_ping` over a list of transport
events (the list ending models `pingloop` being cleared): a zero `sendto`
return ("socket closed"), a negative `sendto` return, a zero `recvmsg`
return, or a negative `recvmsg` return each call `exit(EXIT_FAILURE)`
directly (`none`); otherwise the round is decoded and classified and the
loop continues.  `some` is the normal return to `main`. -/
def sendPingLoop (st : SessState) : List RoundEvent → Option SessState
  | [] => some st
  | io :: rest =>
    if io.sendRes = 0 then none
    else if io.sendRes < 0 then none
    else if io.recvRes = 0 then none
    else if io.recvRes < 0 then none
    else sendPingLoop (stepRound st io.buf io.recvRes.toNat).1 rest


/-- `main` from the socket acquisition on: `send_ping` runs over the
transport events; `close(ping.fd)` is the last statement of `main`, so it
runs only when `send_ping` returns normally — the fatal branches inside the
loop terminate the process via `exit` without reaching it.  Returns
(exited normally, `close` was called). -/
def runProgram (ios : List RoundEvent) : Bool × Bool :=
  match sendPingLoop initSess ios with
  | none => (false, false)
  | some _ => (true, true)



/-- A well-formed-length receive buffer (20-byte IP header plus 64 ICMP
bytes) whose ICMP type is `Icmp_EchoReply` but whose stored checksum (1) is
wrong for its contents. -/
def mismatchBuf : List Nat :=
  69 :: (List.replicate 19 0 ++ (0 :: 0 :: 1 :: List.replicate 61 0))


/-! ## Statistics reporter: the loss percentage (src/src/main.c line 315)

`(u16)((float)(pkt_transmitted - pkt_received) / pkt_transmitted * 100.0)`:
the `u16` counters are promoted to `int`, the difference is converted to
`float` (exact for values below 2^24), divided in single precision, the
quotient is promoted to `double`, multiplied by `100.0` in double precision,
and the product is truncated to `u16`.  IEEE binary32/binary64
round-to-nearest-even arithmetic is modelled exactly over dyadic rationals
(the values here are normal and far from overflow/underflow). -/


/-- Fuelled largest `e` with `b * 2^e ≤ a` (so `⌊log2 (a/b)⌋` for
`0 < b ≤ a`). -/
def log2Aux : Nat → Nat → Nat → Nat
  | 0, _, _ => 0
  | fuel + 1, a, b => if a < 2 * b then 0 else log2Aux fuel a (2 * b) + 1


/-- Fuelled smallest `k` with `b ≤ a * 2^k` (so `⌈log2 (b/a)⌉` for
`0 < a < b`). -/
def clog2Aux : Nat → Nat → Nat → Nat
  | 0, _, _ => 0
  | fuel + 1, a, b => if b ≤ a then 0 else clog2Aux fuel (2 * a) b + 1


/-- `⌊log2 (a/b)⌋` for positive `a`, `b` whose ratio lies within `2^±64`. -/
def floorLog2 (a b : Nat) : Int :=
  if b ≤ a then (log2Aux 64 a b : Int) else -((clog2Aux 64 a b : Int))


/-- Round `a / b` (with `b > 0`) to the nearest integer, ties to even — the
IEEE default rounding. -/
def rneDiv (a b : Nat) : Nat :=
  let q := a / b
  let r := a % b
  if 2 * r < b then q
  else if b < 2 * r then q + 1
  else if q % 2 = 0 then q else q + 1


/-- Round the positive rational `a / b` to `prec` significant bits: the
result is the pair `(m, s)` representing the value `m * 2^s`. -/
def floatRound (prec : Nat) (a b : Nat) : Nat × Int :=
  let e : Int := floorLog2 a b
  let s : Int := e - ((prec : Int) - 1)
  let m := if s ≤ 0 then rneDiv (a * 2 ^ (-s).toNat) b else rneDiv a (b * 2 ^ s.toNat)
  (m, s)


/-- The loss-percentage expression of `send_ping`:
`(u16)((float)(pkt_transmitted - pkt_received) / pkt_transmitted * 100.0)`.
`none` models the cases whose C behaviour is undefined: `t = 0` reaches an
unguarded division by zero (the quotient is NaN and the `u16` cast of NaN is
undefined), and `r > t` produces a negative quotient whose `u16` cast is
undefined.  For `r = t` the float computation is exactly 0.  Otherwise the
difference is divided by `t` in binary32, the quotient is multiplied by 100
in binary64, and the product is truncated. -/
def lossPercent (t r : Nat) : Option Nat :=
  if t = 0 then none
  else if t < r then none
  else if r = t then some 0
  else
    let fdiv := floatRound 24 (t - r) t
    let fmul := floatRound 53 (100 * fdiv.1) (2 ^ (-(fdiv.2)).toNat)
    some (if 0 ≤ fmul.2 then fmul.1 * 2 ^ (fmul.2).toNat else fmul.1 / 2 ^ (-(fmul.2)).toNat)


/-- The loss percentage as the spec words it: `round((t − r) / t × 100)`,
over exact rationals (round half up), written with integer arithmetic. -/
def lossRoundSpec (t r : Nat) : Nat := (200 * (t - r) + t) / (2 * t)


/-! ## Theorems -/

lemma foldCarry_of_lt {s : Nat} (h : s < 65536) : foldCarry s = s := by
  rw [foldCarry]; simp [h]


lemma foldCarry_of_ge {s : Nat} (h : ¬ s < 65536) :
    foldCarry s = foldCarry (s / 65536 + s % 65536) := by
  rw [foldCarry]; simp [h]


lemma foldCarry_lt (s : Nat) : foldCarry s < 65536 := by
  induction s using Nat.strong_induction_on with
  | _ s ih =>
    by_cases h : s < 65536
    · rw [foldCarry_of_lt h]; exact h
    · rw [foldCarry_of_ge h]
      apply ih
      have h1 : s % 65536 < 65536 := Nat.mod_lt _ (by omega)
      have h2 : 65536 * (s / 65536) + s % 65536 = s := Nat.div_add_mod s 65536
      have h3 : 1 ≤ s / 65536 := (Nat.one_le_div_iff (by omega)).mpr (by omega)
      omega


lemma foldCarry_mod (s : Nat) : foldCarry s % 65535 = s % 65535 := by
  induction s using Nat.strong_induction_on with
  | _ s ih =>
    by_cases h : s < 65536
    · rw [foldCarry_of_lt h]
    · rw [foldCarry_of_ge h]
      have h2 : 65536 * (s / 65536) + s % 65536 = s := Nat.div_add_mod s 65536
      have h3 : 1 ≤ s / 65536 := (Nat.one_le_div_iff (by omega)).mpr (by omega)
      have hlt : s / 65536 + s % 65536 < s := by
        have h1 : s % 65536 < 65536 := Nat.mod_lt _ (by omega)
        omega
      rw [ih _ hlt]
      conv_rhs => rw [← h2]
      have : 65536 * (s / 65536) + s % 65536 ≡ s / 65536 + s % 65536 [MOD 65535] := by
        apply Nat.ModEq.add_right
        calc 65536 * (s / 65536) ≡ 1 * (s / 65536) [MOD 65535] :=
              Nat.ModEq.mul_right _ (by decide)
          _ = s / 65536 := one_mul _
      exact this.symm


/-- The two explicit folds of the C code compute the same 16-bit value as
folding until no carry remains, for any 32-bit accumulator value. -/
lemma twoFold_eq_foldCarry {s : Nat} (hs : s < 4294967296) :
    (s / 65536 + s % 65536 + (s / 65536 + s % 65536) / 65536) % 65536
      = foldCarry s := by
  set s1 := s / 65536 + s % 65536 with hs1
  have hdm : 65536 * (s / 65536) + s % 65536 = s := Nat.div_add_mod s 65536
  have hql : s / 65536 ≤ 65535 := by omega
  have hrl : s % 65536 < 65536 := Nat.mod_lt _ (by omega)
  have hs1le : s1 ≤ 131070 := by omega
  by_cases h : s < 65536
  · -- no carry at all: s1 = s and both sides are s
    have hq0 : s / 65536 = 0 := Nat.div_eq_of_lt h
    rw [foldCarry_of_lt h]
    simp only [hs1, hq0, Nat.zero_add, Nat.mod_eq_of_lt h, Nat.div_eq_of_lt h,
      Nat.add_zero]
  · rw [foldCarry_of_ge h, ← hs1]
    by_cases h1 : s1 < 65536
    · rw [foldCarry_of_lt h1, Nat.div_eq_of_lt h1, Nat.add_zero,
        Nat.mod_eq_of_lt h1]
    · -- one more fold: s1 ∈ [65536, 131070], so s1 / 65536 = 1
      have hq1 : s1 / 65536 = 1 := by omega
      rw [foldCarry_of_ge h1, hq1]
      have hm1 : s1 % 65536 = s1 - 65536 := by omega
      rw [hm1]
      have harg : 1 + (s1 - 65536) < 65536 := by omega
      rw [foldCarry_of_lt harg]
      omega


/-- `checksum` agrees with the fold-until-no-carry formulation everywhere. -/
lemma checksum_eq_rfc1071 (bs : List Nat) : checksum bs = rfc1071 bs := by
  have hs : (words bs).sum % 4294967296 < 4294967296 := Nat.mod_lt _ (by omega)
  unfold checksum rfc1071
  simp only [twoFold_eq_foldCarry hs]


/-- C2: `checksum` equals the RFC 1071 Internet checksum described by the
spec (32-bit accumulator over native 16-bit words, odd trailing byte as the
low byte of a final word, carries folded until none remain, one's
complement); in particular the empty buffer yields 0xFFFF and a length-1
buffer treats its single byte as the low byte of a word. -/
theorem checksum_is_rfc1071 :
    (∀ bs : List Nat, checksum bs = rfc1071 bs) ∧
    checksum [] = 65535 ∧
    (∀ b : Nat, checksum [b] = checksum [b, 0]) := by
  refine ⟨checksum_eq_rfc1071, by decide, ?_⟩
  intro b
  simp [checksum, words]


lemma fillerBytes_length : fillerBytes.length = 56 := by decide


lemma checksum_lt (bs : List Nat) : checksum bs < 65536 :=
  Nat.lt_succ_of_le (Nat.sub_le _ _)


/-- Layout facts about the encoded packet, over an arbitrary stored checksum
value `c`: `init_packet pid seq` is definitionally this byte list with
`c = checksum (pktZero pid seq)`. -/
lemma packet_layout_aux (c pid seq : Nat) :
    (([Icmp_EchoRequest, 0, c % 256, c / 256 % 256, pid % 256, pid / 256 % 256,
       seq / 256 % 256, seq % 256] ++ fillerBytes) : List Nat).length = 64 ∧
    (([Icmp_EchoRequest, 0, c % 256, c / 256 % 256, pid % 256, pid / 256 % 256,
       seq / 256 % 256, seq % 256] ++ fillerBytes) : List Nat).getD 0 0 = Icmp_EchoRequest ∧
    (([Icmp_EchoRequest, 0, c % 256, c / 256 % 256, pid % 256, pid / 256 % 256,
       seq / 256 % 256, seq % 256] ++ fillerBytes) : List Nat).getD 1 0 = 0 ∧
    storedBE ([Icmp_EchoRequest, 0, c % 256, c / 256 % 256, pid % 256, pid / 256 % 256,
       seq / 256 % 256, seq % 256] ++ fillerBytes) 6 (seq % 65536) ∧
    storedLE ([Icmp_EchoRequest, 0, c % 256, c / 256 % 256, pid % 256, pid / 256 % 256,
       seq / 256 % 256, seq % 256] ++ fillerBytes) 4 (pid % 65536) ∧
    (([Icmp_EchoRequest, 0, c % 256, c / 256 % 256, pid % 256, pid / 256 % 256,
       seq / 256 % 256, seq % 256] ++ fillerBytes) : List Nat).drop 8 = fillerBytes ∧
    storedLE ([Icmp_EchoRequest, 0, c % 256, c / 256 % 256, pid % 256, pid / 256 % 256,
       seq / 256 % 256, seq % 256] ++ fillerBytes) 2 c := by
  refine ⟨?_, rfl, rfl, ⟨?_, ?_⟩, ⟨?_, ?_⟩, rfl, rfl, rfl⟩
  · simp [fillerBytes_length]
  · show seq / 256 % 256 = (seq % 65536) / 256 % 256
    omega
  · show seq % 256 = (seq % 65536) % 256
    omega
  · show pid % 256 = (pid % 65536) % 256
    omega
  · show pid / 256 % 256 = (pid % 65536) / 256 % 256
    omega


/-- C6 (amended): every packet produced by `init_packet` is exactly 64
bytes: the 8-byte ICMP echo header followed by the 56 deterministic filler
bytes; `type = 8`, `code = 0`; the sequence field is stored in network byte
order (via `htons`); the identifier is stored in host little-endian order
(no conversion is applied); the checksum field holds the checksum of the
zero-checksum packet, stored in the native layout of the `u16` field. -/
theorem init_packet_layout (pid seq : Nat) :
    (init_packet pid seq).length = 64 ∧
    (init_packet pid seq).getD 0 0 = Icmp_EchoRequest ∧
    (init_packet pid seq).getD 1 0 = 0 ∧
    storedBE (init_packet pid seq) 6 (seq % 65536) ∧
    storedLE (init_packet pid seq) 4 (pid % 65536) ∧
    (init_packet pid seq).drop 8 = fillerBytes ∧
    storedLE (init_packet pid seq) 2 (checksum (pktZero pid seq)) :=
  packet_layout_aux (checksum (pktZero pid seq)) pid seq


/-- C6 counterexample: for `pid = 1`, `seq = 0` the identifier field (bytes
4 and 5) is not stored in network byte order: the bytes are `[1, 0]`, while
network byte order for the 16-bit value 1 is `[0, 1]`. -/
theorem init_packet_id_not_network_order :
    ¬ storedBE (init_packet 1 0) 4 1 := by
  unfold storedBE
  decide


/-- C1 (amended): any buffer shorter than `header_offset + PKTSIZE` makes
`decode_msg` return `false` — but because the ICMP type is tested before the
length (src/src/main.c lines 130-136), the failure is surfaced to the caller
as the type-based classification of whatever type byte is present, never as
a distinct "too short" result. -/
theorem decode_short_fails (buf : List Nat) (size : Nat)
    (h : size < buf.getD 0 0 % 16 * 4 + PKTSIZE) :
    (decode_msg buf size).ok = false := by
  dsimp only [decode_msg]
  split <;> rfl


/-- Witness for the truncated-buffer theorem at a concrete short datagram. -/
theorem decode_short_fails_witness :
    28 < shortLoopbackBuf.getD 0 0 % 16 * 4 + PKTSIZE ∧
    (decode_msg shortLoopbackBuf 28).ok = false :=
  ⟨by decide, decode_short_fails shortLoopbackBuf 28 (by decide)⟩



/-- C7: when a round's frame classifies as `Icmp_EchoRequest` (loopback of
the session's own probe), the round leaves the transmitted counter net
unchanged (the `pkt_transmitted--` undoes the send's increment), leaves the
received counter and the printed lines unchanged, and skips the inter-probe
delay; every other classification outcome falls through to the delay. -/
theorem loopback_round (st : SessState) (buf : List Nat) (size : Nat)
    (ht : st.transmitted < 65536) :
    (((decode_msg buf size).ok = false ∧
        (decode_msg buf size).out.getD 0 0 = Icmp_EchoRequest) →
      (stepRound st buf size).1.transmitted = st.transmitted ∧
      (stepRound st buf size).1.received = st.received ∧
      (stepRound st buf size).1.lines = st.lines ∧
      (stepRound st buf size).2 = false) ∧
    (¬((decode_msg buf size).ok = false ∧
        (decode_msg buf size).out.getD 0 0 = Icmp_EchoRequest) →
      (stepRound st buf size).2 = true) := by
  dsimp only [stepRound]
  constructor
  · rintro ⟨hok, hty⟩
    have hok' : ¬ ((decode_msg buf size).ok = true) := by simp [hok]
    have h11 : ¬ ((decode_msg buf size).out.getD 0 0 = Icmp_TimeExceeded) := by
      rw [hty]; decide
    have h0 : ¬ ((decode_msg buf size).out.getD 0 0 = Icmp_EchoReply) := by
      rw [hty]; decide
    rw [if_neg hok', if_neg h11, if_neg h0, if_pos hty]
    refine ⟨?_, rfl, rfl, rfl⟩
    show cSub (cAdd st.transmitted) = st.transmitted
    unfold cAdd cSub
    omega
  · intro hn
    by_cases hok : (decode_msg buf size).ok = true
    · rw [if_pos hok]
    · rw [if_neg hok]
      have hty : ¬ ((decode_msg buf size).out.getD 0 0 = Icmp_EchoRequest) := by
        intro h8
        exact hn ⟨by simpa using hok, h8⟩
      repeat first | rfl | exact absurd (by assumption) hty | split



/-- Witness for the loopback-round theorem at a concrete state and frame. -/
theorem loopback_round_witness :
    (⟨3, 5, 2, []⟩ : SessState).transmitted < 65536 ∧
    ((((decode_msg shortLoopbackBuf 28).ok = false ∧
        (decode_msg shortLoopbackBuf 28).out.getD 0 0 = Icmp_EchoRequest) →
      (stepRound ⟨3, 5, 2, []⟩ shortLoopbackBuf 28).1.transmitted =
        (⟨3, 5, 2, []⟩ : SessState).transmitted ∧
      (stepRound ⟨3, 5, 2, []⟩ shortLoopbackBuf 28).1.received =
        (⟨3, 5, 2, []⟩ : SessState).received ∧
      (stepRound ⟨3, 5, 2, []⟩ shortLoopbackBuf 28).1.lines =
        (⟨3, 5, 2, []⟩ : SessState).lines ∧
      (stepRound ⟨3, 5, 2, []⟩ shortLoopbackBuf 28).2 = false) ∧
    (¬((decode_msg shortLoopbackBuf 28).ok = false ∧
        (decode_msg shortLoopbackBuf 28).out.getD 0 0 = Icmp_EchoRequest) →
      (stepRound ⟨3, 5, 2, []⟩ shortLoopbackBuf 28).2 = true)) :=
  ⟨by decide, loopback_round ⟨3, 5, 2, []⟩ shortLoopbackBuf 28 (by decide)⟩


/-- C1 counterexample: a 28-byte datagram (20-byte IP header plus 8 bytes)
is far shorter than `header_offset + PKTSIZE`, yet because its ICMP type
byte is `Icmp_EchoRequest`, `decode_msg` fails on the type check before the
length check and the session loop classifies the round as a loopback echo:
the transmitted counter is decremented back and the delay skipped — a
type-based classification outcome, not a "too short" failure. -/
theorem decode_short_classified_loopback :
    28 < shortLoopbackBuf.getD 0 0 % 16 * 4 + PKTSIZE ∧
    (decode_msg shortLoopbackBuf 28).ok = false ∧
    (decode_msg shortLoopbackBuf 28).out.getD 0 0 = Icmp_EchoRequest ∧
    (stepRound ⟨0, 7, 0, []⟩ shortLoopbackBuf 28).1.transmitted = 7 ∧
    (stepRound ⟨0, 7, 0, []⟩ shortLoopbackBuf 28).2 = false := by
  refine ⟨by decide, by decide, by decide, by decide, by decide⟩



lemma stepRound_counters (st : SessState) (buf : List Nat) (size : Nat)
    (ht : st.transmitted < 65535) (hr : st.received ≤ st.transmitted) :
    (stepRound st buf size).1.received ≤ (stepRound st buf size).1.transmitted ∧
    (stepRound st buf size).1.transmitted ≤ st.transmitted + 1 := by
  dsimp only [stepRound, cAdd, cSub]
  repeat first
  | (constructor <;> (dsimp only [] ; omega))
  | split


lemma runSession_counters_aux :
    ∀ (rounds : List (List Nat × Nat)) (st : SessState),
      st.received ≤ st.transmitted →
      st.transmitted + rounds.length ≤ 65535 →
      (rounds.foldl (fun acc rb => (stepRound acc rb.1 rb.2).1) st).received ≤
        (rounds.foldl (fun acc rb => (stepRound acc rb.1 rb.2).1) st).transmitted ∧
      (rounds.foldl (fun acc rb => (stepRound acc rb.1 rb.2).1) st).transmitted ≤
        st.transmitted + rounds.length
  | [], st, hr, _ => by
      simpa using hr
  | rb :: rest, st, hr, hb => by
      have hlen : st.transmitted < 65535 := by
        have := List.length_cons rb rest
        omega
      have hstep := stepRound_counters st rb.1 rb.2 hlen hr
      have ih := runSession_counters_aux rest (stepRound st rb.1 rb.2).1 hstep.1
        (by have := List.length_cons rb rest; omega)
      rw [List.foldl_cons]
      have hlc := List.length_cons rb rest
      exact ⟨ih.1, by omega⟩



/-- C10 (amended): in any session of at most 65535 rounds the received
counter never exceeds the transmitted counter — each round increments
transmitted once before receiving, the loopback branch decrements it only
in a round that does not count as received, and received grows by at most
one per round — so the loss numerator is non-negative at session end; the
bound is needed because the `u16` counters wrap at 65536. -/
theorem session_received_le_transmitted (rounds : List (List Nat × Nat))
    (h : rounds.length ≤ 65535) :
    (runSession rounds).received ≤ (runSession rounds).transmitted := by
  have := runSession_counters_aux rounds initSess (by decide)
    (by simpa [initSess] using h)
  exact this.1


/-- Witness for the counter invariant on a concrete one-round session. -/
theorem session_received_le_transmitted_witness :
    ([((69 :: List.replicate 19 0 ++ 8 :: List.replicate 103 0 : List Nat), 28)] :
        List (List Nat × Nat)).length ≤ 65535 ∧
    (runSession [((69 :: List.replicate 19 0 ++ 8 :: List.replicate 103 0 : List Nat), 28)]).received ≤
      (runSession [((69 :: List.replicate 19 0 ++ 8 :: List.replicate 103 0 : List Nat), 28)]).transmitted :=
  ⟨by decide,
   session_received_le_transmitted
     [((69 :: List.replicate 19 0 ++ 8 :: List.replicate 103 0 : List Nat), 28)] (by decide)⟩


lemma stepRound_goodBuf (st : SessState) :
    stepRound st goodBuf 84 =
      ({ msgCount := cAdd st.msgCount, transmitted := cAdd st.transmitted,
         received := cAdd st.received, lines := st.lines ++ [Line.reply 0] }, true) := by
  have hok : (decode_msg goodBuf 84).ok = true := by decide
  have hseq : Line.reply
      (256 * (decode_msg goodBuf 84).out.getD 6 0 + (decode_msg goodBuf 84).out.getD 7 0) =
      Line.reply 0 := by decide
  dsimp only [stepRound]
  rw [if_pos hok, hseq]



lemma run_goodRounds :
    ∀ (n : Nat) (st : SessState),
      st.msgCount < 65536 → st.transmitted < 65536 → st.received < 65536 →
      (List.replicate n (goodBuf, 84)).foldl (fun acc rb => (stepRound acc rb.1 rb.2).1) st =
        { msgCount := (st.msgCount + n) % 65536,
          transmitted := (st.transmitted + n) % 65536,
          received := (st.received + n) % 65536,
          lines := st.lines ++ List.replicate n (Line.reply 0) }
  | 0, st, h1, h2, h3 => by
      cases st with
      | mk m t r ls =>
        dsimp only [] at h1 h2 h3
        simp only [List.replicate, List.foldl_nil, SessState.mk.injEq]
        refine ⟨by omega, by omega, by omega, by simp⟩
  | n + 1, st, h1, h2, h3 => by
      rw [List.replicate_succ, List.foldl_cons]
      rw [show (stepRound st (goodBuf, 84).1 (goodBuf, 84).2).1 =
          ({ msgCount := cAdd st.msgCount, transmitted := cAdd st.transmitted,
             received := cAdd st.received,
             lines := st.lines ++ [Line.reply 0] } : SessState) from
        congrArg Prod.fst (stepRound_goodBuf st)]
      rw [run_goodRounds n _ (by dsimp only [cAdd] ; omega)
        (by dsimp only [cAdd] ; omega) (by dsimp only [cAdd] ; omega)]
      simp only [SessState.mk.injEq, cAdd]
      refine ⟨by omega, by omega, by omega, ?_⟩
      rw [List.append_assoc]
      rfl


/-- C10 counterexample: after one TimeExceeded round followed by 65535
successfully received rounds, the `u16` transmitted counter has wrapped to 0
while the received counter holds 65535, so the received counter exceeds the
transmitted counter (and the loss numerator computed at session end would be
negative). -/
theorem counters_wrap :
    ¬ ((runSession wrapRounds).received ≤ (runSession wrapRounds).transmitted) := by
  have hbad : (stepRound initSess tleBuf 84).1 =
      (⟨1, 1, 0, [Line.timeExceeded]⟩ : SessState) := by decide
  have hrun : runSession wrapRounds =
      { msgCount := (1 + 65535) % 65536, transmitted := (1 + 65535) % 65536,
        received := (0 + 65535) % 65536,
        lines := [Line.timeExceeded] ++ List.replicate 65535 (Line.reply 0) } := by
    unfold runSession wrapRounds
    rw [List.foldl_cons]
    rw [show (stepRound initSess (tleBuf, 84).1 (tleBuf, 84).2).1 =
        (⟨1, 1, 0, [Line.timeExceeded]⟩ : SessState) from hbad]
    exact run_goodRounds 65535 ⟨1, 1, 0, [Line.timeExceeded]⟩ (by decide) (by decide) (by decide)
  rw [hrun]
  dsimp only []
  omega



/-- C8 (amended): the socket is closed exactly on the normal
cancellation-triggered exit path; every fatal transport exit (zero-byte or
failing send or receive) terminates the process without the `close` call. -/
theorem socket_closed_iff_normal_exit (ios : List RoundEvent) :
    (runProgram ios).2 = (runProgram ios).1 := by
  unfold runProgram
  cases sendPingLoop initSess ios <;> rfl


/-- C8 counterexample: a zero-byte `sendto` on the first round is a fatal
exit path on which the socket is not closed before the process terminates. -/
theorem fatal_exit_no_close :
    (runProgram [⟨0, 0, []⟩]).1 = false ∧ (runProgram [⟨0, 0, []⟩]).2 = false := by
  refine ⟨by decide, by decide⟩


/-- C9: `decode_msg` verifies the checksum in place — `pkt` points into the
caller's buffer, and `pkt->header.cksum` is zeroed and then overwritten with
the recomputed checksum.  On a checksum mismatch the function returns with
the caller's buffer changed (the stored checksum 1 has been replaced by the
recomputed 0xFFFF), contradicting its own `const u8* buffer` declaration. -/
theorem decode_msg_mutates_buffer :
    (decode_msg mismatchBuf 84).ok = false ∧
    (decode_msg mismatchBuf 84).buffer ≠ mismatchBuf := by
  refine ⟨by decide, by decide⟩



/-- C3: with zero packets transmitted the statistics computation reaches the
unguarded division `(float)(t - r) / t` with `t = 0`; the code performs the
division (no guard, no "no data" state), and the resulting NaN's `u16` cast
is undefined — modelled as `none`, not `some 0`. -/
theorem loss_transmitted_zero_undefined : lossPercent 0 0 = none := by decide


/-- C4 counterexample: for transmitted = 10, received = 3 the code prints
69% — the single-precision quotient 7/10 rounds below 0.7, and the final
`u16` cast truncates — while `round((t − r) / t × 100)` is 70%. -/
theorem loss_not_rounded :
    lossPercent 10 3 = some 69 ∧ lossRoundSpec 10 3 = 70 := by
  refine ⟨by decide, by decide⟩


/-- C4 (amended): the reported loss percentage is the `u16` truncation of
the IEEE float computation, not `round((t − r) / t × 100)`: the two agree at
transmitted = 10, received = 7 (both 30%), but differ at transmitted = 10,
received = 3, where the code yields 69% against round's 70%. -/
theorem loss_truncated_float :
    lossPercent 10 7 = some 30 ∧ lossRoundSpec 10 7 = 30 ∧
    lossPercent 10 3 = some 69 := by
  refine ⟨by decide, by decide, by decide⟩



set_option maxRecDepth 4000 in

lemma xor_flip_byte :
    ∀ b < 256, ∀ k < 8, (b ^^^ 2 ^ k ≤ 255) ∧
      (b ^^^ 2 ^ k = b + 2 ^ k ∨ b = (b ^^^ 2 ^ k) + 2 ^ k) ∧ b ^^^ 2 ^ k ≠ b := by
  decide


lemma words_sum_le :
    ∀ (bs : List Nat), (∀ b ∈ bs, b ≤ 255) → (words bs).sum ≤ 65535 * bs.length
  | [], _ => by simp [words]
  | [b], h => by
      have := h b (by simp)
      simp [words]
      omega
  | b0 :: b1 :: rest, h => by
      have h0 := h b0 (by simp)
      have h1 := h b1 (by simp)
      have ih := words_sum_le rest (fun b hb => h b (by simp [hb]))
      simp only [words, List.sum_cons, List.length_cons]
      have hl : 65535 * (rest.length + 1 + 1) = 65535 * rest.length + 131070 := by ring
      omega


lemma words_sum_flip :
    ∀ (bs : List Nat) (i k : Nat), i < bs.length → k < 8 → (∀ b ∈ bs, b ≤ 255) →
      ∃ j, j ≤ 15 ∧
        ((words (bs.set i (bs.getD i 0 ^^^ 2 ^ k))).sum = (words bs).sum + 2 ^ j ∨
         (words bs).sum = (words (bs.set i (bs.getD i 0 ^^^ 2 ^ k))).sum + 2 ^ j)
  | [], i, k, hi, _, _ => absurd hi (by simp)
  | [b], 0, k, _, hk, hv => by
      have hb := hv b (by simp)
      refine ⟨k, by omega, ?_⟩
      simp only [List.set_cons_zero, List.getD_cons_zero, words, List.sum_cons, List.sum_nil]
      rcases (xor_flip_byte b (by omega) k hk).2.1 with hx | hx
      · exact Or.inl (by omega)
      · exact Or.inr (by omega)
  | [b], i + 1, k, hi, _, _ => absurd hi (by simp)
  | b0 :: b1 :: rest, 0, k, _, hk, hv => by
      have hb := hv b0 (by simp)
      refine ⟨k, by omega, ?_⟩
      simp only [List.set_cons_zero, List.getD_cons_zero, words, List.sum_cons]
      rcases (xor_flip_byte b0 (by omega) k hk).2.1 with hx | hx
      · exact Or.inl (by omega)
      · exact Or.inr (by omega)
  | b0 :: b1 :: rest, 1, k, _, hk, hv => by
      have hb := hv b1 (by simp)
      have hpow : (256 : Nat) * 2 ^ k = 2 ^ (k + 8) := by
        rw [pow_add]
        ring
      refine ⟨k + 8, by omega, ?_⟩
      simp only [List.set_cons_succ, List.set_cons_zero, List.getD_cons_succ,
        List.getD_cons_zero, words, List.sum_cons]
      rcases (xor_flip_byte b1 (by omega) k hk).2.1 with hx | hx
      · refine Or.inl ?_
        rw [hx]
        have : 256 * (b1 + 2 ^ k) = 256 * b1 + 2 ^ (k + 8) := by
          rw [← hpow]
          ring
        omega
      · refine Or.inr ?_
        conv_lhs => rw [hx]
        have : 256 * ((b1 ^^^ 2 ^ k) + 2 ^ k) = 256 * (b1 ^^^ 2 ^ k) + 2 ^ (k + 8) := by
          rw [← hpow]
          ring
        omega
  | b0 :: b1 :: rest, i + 2, k, hi, hk, hv => by
      have hi2 : i < rest.length := by
        simp only [List.length_cons] at hi
        omega
      obtain ⟨j, hj, hd⟩ := words_sum_flip rest i k hi2 hk (fun b hb => hv b (by simp [hb]))
      refine ⟨j, hj, ?_⟩
      have hset : (b0 :: b1 :: rest).set (i + 2) ((b0 :: b1 :: rest).getD (i + 2) 0 ^^^ 2 ^ k)
          = b0 :: b1 :: rest.set i (rest.getD i 0 ^^^ 2 ^ k) := rfl
      rw [hset]
      simp only [words, List.sum_cons]
      rcases hd with hd | hd
      · exact Or.inl (by omega)
      · exact Or.inr (by omega)



lemma getD_mem (l : List Nat) (i : Nat) (h : i < l.length) : l.getD i 0 ∈ l := by
  induction l generalizing i with
  | nil => simp at h
  | cons a t ih =>
    cases i with
    | zero => simp
    | succ n =>
      simp only [List.getD_cons_succ]
      exact List.mem_cons_of_mem a (ih n (by simpa using h))


lemma checksum_flip_ne (bs : List Nat) (i k : Nat) (hi : i < bs.length)
    (hk : k < 8) (hv : ∀ b ∈ bs, b ≤ 255) (hlen : bs.length ≤ 256) :
    checksum (bs.set i (bs.getD i 0 ^^^ 2 ^ k)) ≠ checksum bs := by
  obtain ⟨j, hj, hd⟩ := words_sum_flip bs i k hi hk hv
  have hvi : bs.getD i 0 ≤ 255 := hv _ (getD_mem bs i hi)
  have hv2 : ∀ b ∈ bs.set i (bs.getD i 0 ^^^ 2 ^ k), b ≤ 255 := by
    intro b hb
    rcases List.mem_or_eq_of_mem_set hb with h | h
    · exact hv b h
    · rw [h]
      exact (xor_flip_byte _ (by omega) k hk).1
  have hs1 : (words bs).sum ≤ 65535 * 256 := by
    have := words_sum_le bs hv
    have h2 : 65535 * bs.length ≤ 65535 * 256 := Nat.mul_le_mul_left _ hlen
    omega
  have hs2 : (words (bs.set i (bs.getD i 0 ^^^ 2 ^ k))).sum ≤ 65535 * 256 := by
    have := words_sum_le _ hv2
    have hl : (bs.set i (bs.getD i 0 ^^^ 2 ^ k)).length = bs.length := List.length_set bs _ _
    rw [hl] at this
    have h2 : 65535 * bs.length ≤ 65535 * 256 := Nat.mul_le_mul_left _ hlen
    omega
  intro heq
  rw [checksum_eq_rfc1071, checksum_eq_rfc1071] at heq
  unfold rfc1071 at heq
  rw [Nat.mod_eq_of_lt (by omega), Nat.mod_eq_of_lt (by omega)] at heq
  have hlt1 := foldCarry_lt (words bs).sum
  have hlt2 := foldCarry_lt (words (bs.set i (bs.getD i 0 ^^^ 2 ^ k))).sum
  have heq2 : foldCarry (words (bs.set i (bs.getD i 0 ^^^ 2 ^ k))).sum
      = foldCarry (words bs).sum := by omega
  have hm1 := foldCarry_mod (words (bs.set i (bs.getD i 0 ^^^ 2 ^ k))).sum
  have hm2 := foldCarry_mod (words bs).sum
  rw [heq2, hm2] at hm1
  rcases hd with hd | hd <;> (rw [hd] at hm1 ; interval_cases j <;> omega)



lemma getD_set_ne (l : List Nat) {i j : Nat} (v : Nat) (h : i ≠ j) :
    (l.set i v).getD j 0 = l.getD j 0 := by
  simp [List.getD, List.getElem?_set_ne h]


lemma getD_set_self (l : List Nat) {i : Nat} (v : Nat) (h : i < l.length) :
    (l.set i v).getD i 0 = v := by
  simp [List.getD, List.getElem?_set_self, h]


lemma embedCk_length (p : List Nat) (c : Nat) : (embedCk p c).length = p.length := by
  simp [embedCk]


lemma readCk_embedCk (p : List Nat) (c : Nat) (hp : 4 ≤ p.length) (hc : c < 65536) :
    readCk (embedCk p c) = c := by
  unfold readCk embedCk
  rw [getD_set_self _ _ (by simp ; omega), getD_set_ne _ _ (by omega),
    getD_set_self _ _ (by omega)]
  omega


lemma zeroCk_embedCk (p : List Nat) (c : Nat) : zeroCk (embedCk p c) = zeroCk p := by
  unfold zeroCk embedCk
  calc (((p.set 2 (c % 256)).set 3 (c / 256 % 256)).set 2 0).set 3 0
      = (((p.set 2 (c % 256)).set 2 0).set 3 (c / 256 % 256)).set 3 0 := by
        rw [List.set_comm (c / 256 % 256) 0 (p.set 2 (c % 256)) (by omega)]
    _ = (p.set 2 0).set 3 0 := by rw [List.set_set, List.set_set]


lemma embedCk_set_comm (p : List Nat) (c w : Nat) {i : Nat} (h2 : i ≠ 2) (h3 : i ≠ 3) :
    (embedCk p c).set i w = embedCk (p.set i w) c := by
  unfold embedCk
  rw [List.set_comm _ w _ (Ne.symm h3), List.set_comm _ w _ (Ne.symm h2)]


lemma zeroCk_set_comm (p : List Nat) (w : Nat) {i : Nat} (h2 : i ≠ 2) (h3 : i ≠ 3) :
    zeroCk (p.set i w) = (zeroCk p).set i w := by
  unfold zeroCk
  rw [List.set_comm w 0 p h2, List.set_comm w 0 (p.set 2 0) h3]


lemma getD_embedCk_ne (p : List Nat) (c : Nat) {i : Nat} (h2 : i ≠ 2) (h3 : i ≠ 3) :
    (embedCk p c).getD i 0 = p.getD i 0 := by
  unfold embedCk
  rw [getD_set_ne _ _ (Ne.symm h3), getD_set_ne _ _ (Ne.symm h2)]



/-- C5: for a byte buffer with its checksum field zeroed, embedding its
checksum makes the decoder's verification succeed, and flipping any single
bit of the resulting packet makes verification fail, because a single-bit
flip always changes the one's-complement sum.  The buffer is assumed to be
made of bytes, at least the 4 bytes needed to hold the field, and no longer
than the 256-byte receive buffer (so the 32-bit accumulator cannot wrap). -/
theorem checksum_roundtrip_flip (B : List Nat)
    (hv : ∀ b ∈ B, b ≤ 255) (hlen4 : 4 ≤ B.length) (hlen : B.length ≤ 256)
    (hz : zeroCk B = B) :
    verifyCk (embedCk B (checksum B)) = true ∧
    ∀ i < B.length, ∀ k < 8,
      verifyCk (flipBit (embedCk B (checksum B)) i k) = false := by
  have hc : checksum B < 65536 := checksum_lt B
  have hPlen : (embedCk B (checksum B)).length = B.length := embedCk_length B _
  have hread : readCk (embedCk B (checksum B)) = checksum B := readCk_embedCk B _ hlen4 hc
  have hzero : zeroCk (embedCk B (checksum B)) = B := by rw [zeroCk_embedCk, hz]
  have hdivlt : checksum B / 256 % 256 = checksum B / 256 := by omega
  constructor
  · unfold verifyCk
    rw [hread, hzero]
    exact beq_self_eq_true _
  · intro i hi k hk
    unfold verifyCk flipBit
    by_cases h2 : i = 2
    · subst h2
      have hp2 : (embedCk B (checksum B)).getD 2 0 = checksum B % 256 := by
        unfold embedCk
        rw [getD_set_ne _ _ (by omega), getD_set_self _ _ (by omega)]
      rw [hp2]
      have hzz : zeroCk ((embedCk B (checksum B)).set 2 (checksum B % 256 ^^^ 2 ^ k)) = B := by
        unfold zeroCk
        rw [List.set_set]
        rw [show ((embedCk B (checksum B)).set 2 0).set 3 0 = zeroCk (embedCk B (checksum B))
          from rfl]
        exact hzero
      rw [hzz]
      have hr2 : ((embedCk B (checksum B)).set 2 (checksum B % 256 ^^^ 2 ^ k)).getD 2 0
          = checksum B % 256 ^^^ 2 ^ k := getD_set_self _ _ (by omega)
      have hr3 : ((embedCk B (checksum B)).set 2 (checksum B % 256 ^^^ 2 ^ k)).getD 3 0
          = checksum B / 256 % 256 := by
        rw [getD_set_ne _ _ (by omega)]
        unfold embedCk
        rw [getD_set_self _ _ (by simp ; omega)]
      unfold readCk
      rw [hr2, hr3]
      have hx := (xor_flip_byte (checksum B % 256) (by omega) k hk).2.2
      refine beq_eq_false_iff_ne.mpr ?_
      omega
    · by_cases h3 : i = 3
      · subst h3
        have hp3 : (embedCk B (checksum B)).getD 3 0 = checksum B / 256 % 256 := by
          unfold embedCk
          rw [getD_set_self _ _ (by simp ; omega)]
        rw [hp3]
        have hzz : zeroCk ((embedCk B (checksum B)).set 3 (checksum B / 256 % 256 ^^^ 2 ^ k))
            = B := by
          unfold zeroCk
          rw [List.set_comm (checksum B / 256 % 256 ^^^ 2 ^ k) 0 (embedCk B (checksum B))
            (by omega), List.set_set]
          rw [show ((embedCk B (checksum B)).set 2 0).set 3 0 = zeroCk (embedCk B (checksum B))
            from rfl]
          exact hzero
        rw [hzz]
        have hr2 : ((embedCk B (checksum B)).set 3 (checksum B / 256 % 256 ^^^ 2 ^ k)).getD 2 0
            = checksum B % 256 := by
          rw [getD_set_ne _ _ (by omega)]
          unfold embedCk
          rw [getD_set_ne _ _ (by omega), getD_set_self _ _ (by omega)]
        have hr3 : ((embedCk B (checksum B)).set 3 (checksum B / 256 % 256 ^^^ 2 ^ k)).getD 3 0
            = checksum B / 256 % 256 ^^^ 2 ^ k := getD_set_self _ _ (by rw [embedCk_length] ; omega)
        unfold readCk
        rw [hr2, hr3]
        have hx := (xor_flip_byte (checksum B / 256 % 256) (by omega) k hk).2.2
        refine beq_eq_false_iff_ne.mpr ?_
        omega
      · have hgi : (embedCk B (checksum B)).getD i 0 = B.getD i 0 := getD_embedCk_ne B _ h2 h3
        rw [hgi]
        rw [embedCk_set_comm B _ _ h2 h3]
        have hlen2 : (B.set i (B.getD i 0 ^^^ 2 ^ k)).length = B.length := List.length_set B _ _
        have hread2 : readCk (embedCk (B.set i (B.getD i 0 ^^^ 2 ^ k)) (checksum B))
            = checksum B := readCk_embedCk _ _ (by omega) hc
        have hzero2 : zeroCk (embedCk (B.set i (B.getD i 0 ^^^ 2 ^ k)) (checksum B))
            = B.set i (B.getD i 0 ^^^ 2 ^ k) := by
          rw [zeroCk_embedCk, zeroCk_set_comm _ _ h2 h3, hz]
        unfold verifyCk at *
        rw [hread2, hzero2]
        refine beq_eq_false_iff_ne.mpr ?_
        intro heq
        exact checksum_flip_ne B i k hi hk hv hlen (by omega)



/-- Witness for the round-trip and flip theorem on a concrete 8-byte buffer. -/
theorem checksum_roundtrip_flip_witness :
    ((∀ b ∈ (List.replicate 8 0 : List Nat), b ≤ 255) ∧
      4 ≤ (List.replicate 8 0 : List Nat).length ∧
      (List.replicate 8 0 : List Nat).length ≤ 256 ∧
      zeroCk (List.replicate 8 0) = List.replicate 8 0) ∧
    (verifyCk (embedCk (List.replicate 8 0) (checksum (List.replicate 8 0))) = true ∧
      ∀ i < (List.replicate 8 0 : List Nat).length, ∀ k < 8,
        verifyCk (flipBit (embedCk (List.replicate 8 0)
          (checksum (List.replicate 8 0))) i k) = false) :=
  ⟨⟨by decide, by decide, by decide, by decide⟩,
   checksum_roundtrip_flip (List.replicate 8 0) (by decide) (by decide) (by decide) (by decide)⟩


end FtPing
